import Mathlib

/-!
Verification of the duplicate-management subsystem of the photo-library
application: default-keeper selection, the duplicate-review state machine
(`DuplicateReviewModal.tsx`), the exact-duplicates keeper rule and the
cluster display filter (`DuplicatesPage`), and the spec-level models of the
cluster builder and the ignore ledger (whose backend implementation is not
part of the frontend sources; only the API client wrappers are).

Images carry an identifier, optional pixel dimensions and an optional
creation timestamp; a JavaScript expression `im.width || 0` is modelled by
`Option.getD _ 0`, and a numeric id used in a truthiness test is compared
against 0.
-/

namespace PhotoLib

/-- An image record, restricted to the fields the duplicate flow reads:
`id`, `width`, `height`, `created_at` (modelled as a parsed timestamp). -/
structure Image where
  id : Nat
  width : Option Nat
  height : Option Nat
  createdAt : Option Nat
  deriving DecidableEq, Repr

/-- `(im.width || 0) * (im.height || 0)` — the pixel area used by both
keeper-selection rules. -/
def areaOf (im : Image) : Nat :=
  im.width.getD 0 * im.height.getD 0

/-- `a.created_at ? Date.parse(a.created_at) : 0`. -/
def timeOf (im : Image) : Nat :=
  im.createdAt.getD 0

/-- One step of the `reduce` inside `selectDefaultKeeper`
(`DuplicateReviewModal.tsx`): keep the accumulator unless the next image
has a strictly larger area. -/
def keeperFold (acc : Option (Nat × Nat)) (im : Image) : Option (Nat × Nat) :=
  match acc with
  | none => some (im.id, areaOf im)
  | some (bid, barea) =>
      if areaOf im > barea then some (im.id, areaOf im) else some (bid, barea)

/-- `selectDefaultKeeper(images)` from `DuplicateReviewModal.tsx`: a left
fold keeping the first image whose area strictly exceeds the running best,
followed by the JavaScript fallback `best?.id || images[0]?.id` (which
falls back when the best id is the falsy value 0). -/
def selectDefaultKeeper (images : List Image) : Option Nat :=
  match images.foldl keeperFold none with
  | some (bid, _) => if bid = 0 then images.head?.map Image.id else some bid
  | none => images.head?.map Image.id

/-- The review modal's initial queue:
`cluster.images.map(i => i.id).filter(id => id !== defaultKeeper)`. -/
def initQueue (images : List Image) (keeper : Nat) : List Nat :=
  (images.map Image.id).filter (fun id => id ≠ keeper)

/-- Recursive form of the fold in `selectDefaultKeeper`, used to reason
about it: scan the remaining images, replacing the best candidate whenever
a strictly larger area appears. -/
def bestFrom (bid barea : Nat) : List Image → Nat × Nat
  | [] => (bid, barea)
  | im :: rest =>
      if areaOf im > barea then bestFrom im.id (areaOf im) rest
      else bestFrom bid barea rest

theorem foldl_keeperFold_eq_bestFrom :
    ∀ (l : List Image) (b a : Nat),
      l.foldl keeperFold (some (b, a)) = some (bestFrom b a l) := by
  intro l
  induction l with
  | nil => intro b a; rfl
  | cons im rest ih =>
      intro b a
      simp only [List.foldl_cons, keeperFold, bestFrom]
      by_cases h : areaOf im > a
      · rw [if_pos h, if_pos h, ih]
      · rw [if_neg h, if_neg h, ih]

theorem bestFrom_spec :
    ∀ (l : List Image) (b a : Nat),
      (bestFrom b a l = (b, a) ∧ ∀ x ∈ l, areaOf x ≤ a) ∨
      (∃ pre im post, l = pre ++ im :: post ∧
        bestFrom b a l = (im.id, areaOf im) ∧ a < areaOf im ∧
        (∀ x ∈ pre, areaOf x < areaOf im) ∧
        (∀ x ∈ post, areaOf x ≤ areaOf im)) := by
  intro l
  induction l with
  | nil => intro b a; exact Or.inl ⟨rfl, by simp⟩
  | cons im rest ih =>
      intro b a
      by_cases h : areaOf im > a
      · rcases ih im.id (areaOf im) with ⟨heq, hall⟩ | ⟨pre, im', post, hl, hres, hlt, hpre, hpost⟩
        · refine Or.inr ⟨[], im, rest, by simp, ?_, h, by simp, hall⟩
          simpa [bestFrom, if_pos h] using heq
        · refine Or.inr ⟨im :: pre, im', post, by simp [hl], ?_, lt_trans h hlt, ?_, hpost⟩
          · simpa [bestFrom, if_pos h] using hres
          · intro x hx
            rcases List.mem_cons.mp hx with rfl | hx
            · exact hlt
            · exact hpre x hx
      · push_neg at h
        rcases ih b a with ⟨heq, hall⟩ | ⟨pre, im', post, hl, hres, hlt, hpre, hpost⟩
        · refine Or.inl ⟨?_, ?_⟩
          · simpa [bestFrom, if_neg (not_lt.mpr h)] using heq
          · intro x hx
            rcases List.mem_cons.mp hx with rfl | hx
            · exact h
            · exact hall x hx
        · refine Or.inr ⟨im :: pre, im', post, by simp [hl], ?_, hlt, ?_, hpost⟩
          · simpa [bestFrom, if_neg (not_lt.mpr h)] using hres
          · intro x hx
            rcases List.mem_cons.mp hx with rfl | hx
            · exact lt_of_le_of_lt h hlt
            · exact hpre x hx

/-- The concrete scenario's images: A(800×600, oldest), B(400×300),
C(800×600, newest), with ids 1, 2, 3. -/
def imgA : Image := ⟨1, some 800, some 600, some 10⟩

def imgB : Image := ⟨2, some 400, some 300, some 20⟩

def imgC : Image := ⟨3, some 800, some 600, some 30⟩

/-- C1, counterexample: on the cluster {A(800×600), B(400×300),
C(800×600, newer)} the code selects A — the first member attaining the
maximal area — not C, and the initial queue is [B, C], not [A, B]:
`selectDefaultKeeper` never consults creation time or id. -/
theorem c1_keeper_counterexample :
    selectDefaultKeeper [imgA, imgB, imgC] = some imgA.id ∧
    selectDefaultKeeper [imgA, imgB, imgC] ≠ some imgC.id ∧
    initQueue [imgA, imgB, imgC] imgA.id = [imgB.id, imgC.id] ∧
    initQueue [imgA, imgB, imgC] imgA.id ≠ [imgA.id, imgB.id] := by
  refine ⟨rfl, by decide, rfl, by decide⟩

/-- C1, amended: for every non-empty cluster whose member ids are nonzero,
the suggested default keeper is the *first* member in cluster order whose
pixel area is maximal — every earlier member has strictly smaller area and
every later member has area at most the keeper's; creation timestamp and
identifier are never consulted. -/
theorem c1_keeper_first_max (images : List Image) (hne : images ≠ [])
    (hid : ∀ im ∈ images, im.id ≠ 0) :
    ∃ pre im post, images = pre ++ im :: post ∧
      selectDefaultKeeper images = some im.id ∧
      (∀ x ∈ pre, areaOf x < areaOf im) ∧
      (∀ x ∈ post, areaOf x ≤ areaOf im) := by
  obtain ⟨i0, rest, rfl⟩ := List.exists_cons_of_ne_nil hne
  have hfold : (i0 :: rest).foldl keeperFold none =
      some (bestFrom i0.id (areaOf i0) rest) := by
    simp only [List.foldl_cons, keeperFold]
    exact foldl_keeperFold_eq_bestFrom rest i0.id (areaOf i0)
  rcases bestFrom_spec rest i0.id (areaOf i0) with
    ⟨heq, hall⟩ | ⟨pre, im', post, hl, hres, hlt, hpre, hpost⟩
  · refine ⟨[], i0, rest, by simp, ?_, by simp, hall⟩
    have hid0 : i0.id ≠ 0 := hid i0 (List.mem_cons_self i0 rest)
    simp [selectDefaultKeeper, hfold, heq, hid0]
  · refine ⟨i0 :: pre, im', post, by simp [hl], ?_, ?_, hpost⟩
    · have him' : im' ∈ i0 :: rest := by
        rw [hl]
        exact List.mem_cons_of_mem i0 (by simp)
      have hid' : im'.id ≠ 0 := hid im' him'
      simp [selectDefaultKeeper, hfold, hres, hid']
    · intro x hx
      rcases List.mem_cons.mp hx with rfl | hx
      · exact hlt
      · exact hpre x hx

/-- Witness for `c1_keeper_first_max` at the scenario cluster [A, B, C]:
the keeper decomposition exists (and is A). -/
theorem c1_keeper_first_max_witness :
    ∃ pre im post, [imgA, imgB, imgC] = pre ++ im :: post ∧
      selectDefaultKeeper [imgA, imgB, imgC] = some im.id ∧
      (∀ x ∈ pre, areaOf x < areaOf im) ∧
      (∀ x ∈ post, areaOf x ≤ areaOf im) :=
  c1_keeper_first_max [imgA, imgB, imgC] (by decide) (by decide)

/-! ## The duplicate-review state machine (`DuplicateReviewModal.tsx`)

The modal's local state is the keeper id, the queue of remaining duplicate
ids, the current index, the processed counter, and (for the parent page)
the stream of `onProcessed` notifications, which fire only when the
server call succeeded. Each handler is modelled as the pure effect of its
full asynchronous flow, with a boolean recording whether the external call
succeeded. -/

/-- An `onProcessed` notification emitted to the parent page. -/
inductive ReviewEvent
  | merged (keeperId dupId : Nat)
  | ignored (keeperId dupId : Nat)
  deriving DecidableEq, Repr

/-- The review modal's local state. -/
structure RState where
  keeperId : Nat
  queue : List Nat
  index : Nat
  processed : Nat
  events : List ReviewEvent
  deriving DecidableEq, Repr

/-- A session is either still reviewing or closed (`close()` was called). -/
inductive Step
  | reviewing (s : RState)
  | done (s : RState)
  deriving DecidableEq, Repr

/-- The state carried by a step, whether or not the session has closed. -/
def Step.st : Step → RState
  | .reviewing s => s
  | .done s => s

def Step.isDone : Step → Bool
  | .reviewing _ => false
  | .done _ => true

/-- `rightId = queue[index]` combined with the truthiness test
`if (!rightId)`: an out-of-range index or the falsy id 0 yields no current
candidate. -/
def rightOf (s : RState) : Option Nat :=
  match s.queue.get? s.index with
  | some d => if d = 0 then none else some d
  | none => none

/-- The shared tail of `doMerge`/`doIgnore` after the external call:
remove `queue[index]` (`queue.filter((_, idx) => idx !== index)`), bump
`processed`, close if the queue emptied, otherwise clamp the index to
`Math.min(index, rest.length - 1)`. -/
def removeCurrent (s : RState) (evs : List ReviewEvent) : Step :=
  let rest := s.queue.eraseIdx s.index
  if rest.length = 0 then
    .done { s with queue := rest, processed := s.processed + 1, events := evs }
  else
    .reviewing { s with queue := rest, processed := s.processed + 1,
                        index := min s.index (rest.length - 1), events := evs }

/-- `doMerge()` once its guards have passed, as a function of whether
`mergeMutation.mutateAsync` succeeded: the failure is swallowed
(`catch {}`), `onProcessed` fires only on success, and the queue update
runs unconditionally. -/
def doMerge (ok : Bool) (s : RState) : Step :=
  match rightOf s with
  | none => .done s
  | some d =>
      removeCurrent s
        (if ok then s.events ++ [ReviewEvent.merged s.keeperId d] else s.events)

/-- `doIgnore()` once its guards have passed, as a function of whether
`ignoreDuplicatePairs` succeeded; same unconditional queue update. -/
def doIgnore (ok : Bool) (s : RState) : Step :=
  match rightOf s with
  | none => .done s
  | some d =>
      removeCurrent s
        (if ok then s.events ++ [ReviewEvent.ignored s.keeperId d] else s.events)

/-- `skip()`: close when no candidate or when the queue has at most one
item; otherwise move `queue[index]` to the back, leaving index, processed
counter and events untouched. -/
def skip (s : RState) : Step :=
  match rightOf s with
  | none => .done s
  | some d =>
      if s.queue.length ≤ 1 then .done s
      else .reviewing { s with queue := s.queue.eraseIdx s.index ++ [d] }

/-- `Array.prototype.splice(n, 0, a)`: insert `a` at position `n`,
clamping `n` to the array length. -/
def spliceInsert (l : List Nat) (n : Nat) (a : Nat) : List Nat :=
  l.take n ++ a :: l.drop n

/-- `swapKeeper()`: the current right-hand candidate becomes the keeper;
the previous keeper is spliced into `queue.filter(id => id !== rightId)`
at the current index. -/
def swapKeeper (s : RState) : RState :=
  match rightOf s with
  | none => s
  | some r =>
      { s with keeperId := r,
               queue := spliceInsert (s.queue.filter (fun id => id ≠ r)) s.index s.keeperId }

/-- One call of a failure-free review sequence: `true` picks `doMerge`,
`false` picks `doIgnore`; a closed session absorbs further calls. -/
def applyCall (c : Bool) : Step → Step
  | .reviewing s => if c then doMerge true s else doIgnore true s
  | .done s => .done s

/-- Run a sequence of successful merge/ignore calls. -/
def runCalls (cs : List Bool) (st : Step) : Step :=
  cs.foldl (fun acc c => applyCall c acc) st

/-! Guard-level model of the handlers' entry checks, for the concurrency
rule. `hasRight` is `!!rightId`; the two loading flags are the
react-query mutation states; `animActive` is `animType !== null`. -/

/-- The flags the handlers' guards read on entry. -/
structure GuardFlags where
  hasRight : Bool
  mergeLoading : Bool
  ignoreLoading : Bool
  animActive : Bool
  deriving DecidableEq, Repr

/-- `doMerge` performs its transition: `rightId` present and not
`mergeMutation.isLoading || ignoreMutation.isLoading || animType`. -/
def mergeProceeds (g : GuardFlags) : Bool :=
  g.hasRight && !(g.mergeLoading || g.ignoreLoading || g.animActive)

/-- `doIgnore` has the same guard as `doMerge`. -/
def ignoreProceeds (g : GuardFlags) : Bool :=
  g.hasRight && !(g.mergeLoading || g.ignoreLoading || g.animActive)

/-- `skip` checks only `animType`, not the mutation loading flags. -/
def skipProceeds (g : GuardFlags) : Bool :=
  g.hasRight && !g.animActive

/-- Some transition is still in flight: a mutation is loading or an exit
animation is running. -/
def transitionPending (g : GuardFlags) : Bool :=
  g.mergeLoading || g.ignoreLoading || g.animActive

/-- A fixed Reviewing state for the failure scenario: keeper C (id 3),
queue [A, B] with ids [1, 2], index 0. -/
def failState : RState := ⟨3, [1, 2], 0, 0, []⟩

/-- C2, counterexample: with keeper 3 and queue [1, 2] at index 0, a
`merge` whose server call fails still removes item 1 from the local
queue: the queue becomes [2], its length changes, and the item no longer
sits at its original index — the transition is applied despite the
failure. -/
theorem c2_failed_merge_counterexample :
    (doMerge false failState).st.queue = [2] ∧
    (doMerge false failState).st.queue.length ≠ failState.queue.length ∧
    (doMerge false failState).st.queue.get? 0 ≠ some 1 := by
  refine ⟨rfl, by decide, by decide⟩

/-- C2, amended: a failed external call changes nothing about the local
transition — `doMerge`/`doIgnore` update queue, index, processed counter
and termination exactly as on success; the only difference is that no
`onProcessed` notification is emitted (so no merge/ignore is recorded for
the parent view). -/
theorem c2_failure_still_applied (s : RState) :
    (doMerge false s).st.keeperId = (doMerge true s).st.keeperId ∧
    (doMerge false s).st.queue = (doMerge true s).st.queue ∧
    (doMerge false s).st.index = (doMerge true s).st.index ∧
    (doMerge false s).st.processed = (doMerge true s).st.processed ∧
    (doMerge false s).isDone = (doMerge true s).isDone ∧
    (doMerge false s).st.events = s.events ∧
    (doIgnore false s).st.keeperId = (doIgnore true s).st.keeperId ∧
    (doIgnore false s).st.queue = (doIgnore true s).st.queue ∧
    (doIgnore false s).st.index = (doIgnore true s).st.index ∧
    (doIgnore false s).st.processed = (doIgnore true s).st.processed ∧
    (doIgnore false s).isDone = (doIgnore true s).isDone ∧
    (doIgnore false s).st.events = s.events := by
  unfold doMerge doIgnore removeCurrent
  cases h : rightOf s with
  | none => simp [Step.st, Step.isDone]
  | some d =>
      by_cases hlen : (s.queue.eraseIdx s.index).length = 0 <;>
        simp [hlen, Step.st, Step.isDone]

/-- A state in which a merge call is still awaiting its server response
(mutation loading, no exit animation) and a right-hand candidate exists. -/
def pendingMergeFlags : GuardFlags := ⟨true, true, false, false⟩

/-- C3, counterexample: while a merge mutation is still in flight
(`mergeLoading`, no animation yet), `skip`'s guard — which checks only
`animType` — lets the skip proceed, so a transition request arriving
while another is pending is not rejected. -/
theorem c3_skip_during_merge_counterexample :
    skipProceeds pendingMergeFlags = true ∧
    transitionPending pendingMergeFlags = true := by
  exact ⟨rfl, rfl⟩

/-- C3, amended: `merge` and `ignore` are rejected whenever another
transition is pending (mutation loading or animation running), but `skip`
is only rejected during the animation phase — it can proceed while a
merge/ignore server call is still in flight. -/
theorem c3_serialization (g : GuardFlags) :
    (mergeProceeds g = true → transitionPending g = false) ∧
    (ignoreProceeds g = true → transitionPending g = false) ∧
    (skipProceeds g = true → g.animActive = false) := by
  obtain ⟨hr, ml, il, an⟩ := g
  refine ⟨?_, ?_, ?_⟩ <;>
    · intro h
      simp only [mergeProceeds, ignoreProceeds, skipProceeds,
        transitionPending, Bool.and_eq_true, Bool.not_eq_true',
        Bool.or_eq_false_iff] at h ⊢
      exact h.2

/-- Witness for `c3_serialization`: in an idle session with a candidate,
merge proceeds and indeed nothing is pending. -/
theorem c3_serialization_witness :
    transitionPending ⟨true, false, false, false⟩ = false :=
  (c3_serialization ⟨true, false, false, false⟩).1 rfl

theorem rightOf_eq_get (s : RState) (h : s.index < s.queue.length)
    (h0 : ∀ x ∈ s.queue, x ≠ 0) :
    rightOf s = some s.queue[s.index] := by
  have hne : s.queue[s.index] ≠ 0 := h0 _ (List.getElem_mem h)
  unfold rightOf
  rw [List.get?_eq_getElem?, List.getElem?_eq_getElem h]
  simp [hne]

theorem eraseIdx_append_current_perm (l : List Nat) (i : Nat) (h : i < l.length) :
    (l.eraseIdx i ++ [l[i]]).Perm l := by
  have h1 := List.perm_append_singleton l[i] (l.eraseIdx i)
  have h2 : (l.erase l[i]).Perm (l.eraseIdx i) := List.erase_getElem h
  have h3 : l.Perm (l[i] :: l.erase l[i]) := List.perm_cons_erase (List.getElem_mem h)
  exact h1.trans ((h2.symm.cons _).trans h3.symm)

theorem length_filter_ne_of_nodup :
    ∀ (l : List Nat), l.Nodup → ∀ r ∈ l,
      (l.filter (fun x => x ≠ r)).length = l.length - 1 := by
  intro l
  induction l with
  | nil => intro _ r hr; cases hr
  | cons a t ih =>
      intro hn r hr
      obtain ⟨ha, hnt⟩ := List.nodup_cons.mp hn
      rcases List.mem_cons.mp hr with rfl | hrt
      · have h1 : (r :: t).filter (fun x => x ≠ r) = t := by
          have h2 : t.filter (fun x => x ≠ r) = t :=
            List.filter_eq_self.mpr (fun x hx => by
              simp only [ne_eq, decide_eq_true_eq]
              exact fun hxr => ha (hxr ▸ hx))
          simpa [List.filter_cons] using h2
        rw [h1]
        simp
      · have hra : r ≠ a := fun hra => ha (hra ▸ hrt)
        have hpos : 1 ≤ t.length := List.length_pos.mpr (List.ne_nil_of_mem hrt)
        have := ih hnt r hrt
        simp only [List.filter_cons, ne_eq, decide_eq_true_eq]
        rw [if_pos (fun hx => hra hx.symm)]
        simp only [List.length_cons, this]
        omega

theorem length_spliceInsert (l : List Nat) (n a : Nat) :
    (spliceInsert l n a).length = l.length + 1 := by
  simp only [spliceInsert, List.length_append, List.length_cons,
    List.length_take, List.length_drop]
  omega

theorem get?_spliceInsert_self (l : List Nat) (n a : Nat) (h : n ≤ l.length) :
    (spliceInsert l n a).get? n = some a := by
  unfold spliceInsert
  rw [List.get?_eq_getElem?, List.getElem?_append_right (by
    rw [List.length_take]; omega)]
  rw [List.length_take, Nat.min_eq_left h, Nat.sub_self]
  simp

theorem removeCurrent_spec (s : RState) (evs : List ReviewEvent)
    (h : s.index < s.queue.length) :
    (removeCurrent s evs).st.queue = s.queue.eraseIdx s.index ∧
    (removeCurrent s evs).st.queue.length + 1 = s.queue.length ∧
    (∀ s', removeCurrent s evs = Step.reviewing s' →
      s'.index = min s.index (s'.queue.length - 1)) ∧
    (removeCurrent s evs).st.processed = s.processed + 1 ∧
    ((removeCurrent s evs).isDone = true ↔ s.queue.length = 1) := by
  have hlen := List.length_eraseIdx_add_one h
  unfold removeCurrent
  by_cases hz : (s.queue.eraseIdx s.index).length = 0
  · rw [if_pos hz]
    refine ⟨rfl, by simp only [Step.st]; omega, ?_, rfl,
      by simp [Step.isDone]; omega⟩
    intro s' hs'
    cases hs'
  · rw [if_neg hz]
    refine ⟨rfl, by simp only [Step.st]; omega, ?_, rfl,
      by simp [Step.isDone]; omega⟩
    intro s' hs'
    cases hs'
    rfl

theorem runCalls_done (cs : List Bool) (s : RState) :
    runCalls cs (Step.done s) = Step.done s := by
  induction cs with
  | nil => rfl
  | cons c cs ih => simpa [runCalls, applyCall] using ih

/-- A failure-free review session whose call count matches the queue
length always terminates in the closed (`Done`) state. -/
theorem runCalls_empties :
    ∀ (cs : List Bool) (s : RState), (∀ x ∈ s.queue, x ≠ 0) →
      s.index < s.queue.length → s.queue.length = cs.length →
      (runCalls cs (Step.reviewing s)).isDone = true := by
  intro cs
  induction cs with
  | nil =>
      intro s _ h hlen
      rw [hlen] at h
      cases h
  | cons c cs ih =>
      intro s h0 h hlen
      simp only [List.length_cons] at hlen
      have hr := rightOf_eq_get s h h0
      have hstep : ∀ evs, (runCalls cs (removeCurrent s evs)).isDone = true := by
        intro evs
        have hlen1 := List.length_eraseIdx_add_one h
        unfold removeCurrent
        by_cases hz : (s.queue.eraseIdx s.index).length = 0
        · rw [if_pos hz, runCalls_done]
          rfl
        · rw [if_neg hz]
          apply ih
          · intro x hx
            exact h0 x ((s.queue.eraseIdx_sublist s.index).mem hx)
          · show min s.index ((s.queue.eraseIdx s.index).length - 1) <
              (s.queue.eraseIdx s.index).length
            omega
          · show (s.queue.eraseIdx s.index).length = cs.length
            omega
      have : runCalls (c :: cs) (Step.reviewing s) =
          runCalls cs (applyCall c (Step.reviewing s)) := rfl
      rw [this]
      cases c
      · simp only [applyCall, if_neg (by simp : ¬False), doIgnore, hr]
        exact hstep _
      · simp only [applyCall, if_pos trivial, doMerge, hr]
        exact hstep _

/-- C5: on a Reviewing state with a valid current item, a successful
`merge` (and likewise a successful `ignore`) removes exactly the current
queue element — the new queue is the old one with position `index`
erased, one element shorter — and, when the session stays in Reviewing,
the index is clamped to `min(index, queue.length - 1)` of the new queue;
moreover every failure-free sequence of exactly `queue.length` successful
merge/ignore calls ends with the session closed (`Done`). -/
theorem c5_successful_calls_drain_queue (s : RState)
    (h : s.index < s.queue.length) (h0 : ∀ x ∈ s.queue, x ≠ 0) :
    ((doMerge true s).st.queue = s.queue.eraseIdx s.index ∧
     (doMerge true s).st.queue.length + 1 = s.queue.length ∧
     ∀ s', doMerge true s = Step.reviewing s' →
       s'.index = min s.index (s'.queue.length - 1)) ∧
    ((doIgnore true s).st.queue = s.queue.eraseIdx s.index ∧
     (doIgnore true s).st.queue.length + 1 = s.queue.length ∧
     ∀ s', doIgnore true s = Step.reviewing s' →
       s'.index = min s.index (s'.queue.length - 1)) ∧
    (∀ cs : List Bool, cs.length = s.queue.length →
      (runCalls cs (Step.reviewing s)).isDone = true) := by
  have hr := rightOf_eq_get s h h0
  refine ⟨?_, ?_, fun cs hcs => runCalls_empties cs s h0 h hcs.symm⟩
  · have hspec := removeCurrent_spec s
      (s.events ++ [ReviewEvent.merged s.keeperId s.queue[s.index]]) h
    simpa [doMerge, hr] using ⟨hspec.1, hspec.2.1, hspec.2.2.1⟩
  · have hspec := removeCurrent_spec s
      (s.events ++ [ReviewEvent.ignored s.keeperId s.queue[s.index]]) h
    simpa [doIgnore, hr] using ⟨hspec.1, hspec.2.1, hspec.2.2.1⟩

/-- Witness for `c5_successful_calls_drain_queue`: keeper 3 with queue
[1, 2]; the two-call sequence merge-then-ignore closes the session. -/
theorem c5_successful_calls_drain_queue_witness :
    (runCalls [true, false]
      (Step.reviewing ⟨3, [1, 2], 0, 0, []⟩)).isDone = true :=
  (c5_successful_calls_drain_queue ⟨3, [1, 2], 0, 0, []⟩ (by decide)
    (by decide)).2.2 [true, false] (by decide)

/-- C6: with a valid current item and at least two queued ids, `skip`
moves `queue[index]` to the back — the new queue is the old one with the
current position erased and the current id appended — keeping the same
length and the same multiset of ids; with exactly one queued id, `skip`
closes the session. -/
theorem c6_skip_moves_current_to_back (s : RState)
    (h : s.index < s.queue.length) (h0 : ∀ x ∈ s.queue, x ≠ 0) :
    (2 ≤ s.queue.length →
      skip s = Step.reviewing
        { s with queue := s.queue.eraseIdx s.index ++ [s.queue[s.index]] } ∧
      (skip s).st.queue.length = s.queue.length ∧
      ((skip s).st.queue).Perm s.queue) ∧
    (s.queue.length = 1 → skip s = Step.done s) := by
  have hr := rightOf_eq_get s h h0
  have hlen := List.length_eraseIdx_add_one h
  constructor
  · intro h2
    have hgt : ¬s.queue.length ≤ 1 := by omega
    have hskip : skip s = Step.reviewing
        { s with queue := s.queue.eraseIdx s.index ++ [s.queue[s.index]] } := by
      simp [skip, hr, hgt]
    refine ⟨hskip, ?_, ?_⟩
    · rw [hskip]
      simp only [Step.st, List.length_append, List.length_cons, List.length_nil]
      omega
    · rw [hskip]
      exact eraseIdx_append_current_perm s.queue s.index h
  · intro h1
    simp [skip, hr, h1]

/-- Witness for `c6_skip_moves_current_to_back`: skipping the first of
two queued ids keeps the queue a permutation of [1, 2]. -/
theorem c6_skip_moves_current_to_back_witness :
    ((skip ⟨3, [1, 2], 0, 0, []⟩).st.queue).Perm [1, 2] :=
  ((c6_skip_moves_current_to_back ⟨3, [1, 2], 0, 0, []⟩ (by decide)
    (by decide)).1 (by decide)).2.2

/-- C7: with a valid current right-hand candidate and duplicate-free
queue, `swapKeeper` makes that candidate the keeper, reinserts the
previous keeper at the current index (so the next comparison is new
keeper versus old keeper), and changes neither the queue length nor the
current index. -/
theorem c7_swapKeeper_repivots (s : RState)
    (h : s.index < s.queue.length) (hn : s.queue.Nodup)
    (h0 : ∀ x ∈ s.queue, x ≠ 0) :
    (swapKeeper s).keeperId = s.queue[s.index] ∧
    (swapKeeper s).queue.length = s.queue.length ∧
    (swapKeeper s).queue.get? s.index = some s.keeperId ∧
    (swapKeeper s).index = s.index := by
  have hr := rightOf_eq_get s h h0
  have hmem : s.queue[s.index] ∈ s.queue := List.getElem_mem h
  have hfil := length_filter_ne_of_nodup s.queue hn s.queue[s.index] hmem
  have hswap : swapKeeper s =
      { s with keeperId := s.queue[s.index],
               queue := spliceInsert
                 (s.queue.filter (fun id => id ≠ s.queue[s.index]))
                 s.index s.keeperId } := by
    simp [swapKeeper, hr]
  rw [hswap]
  refine ⟨rfl, ?_, ?_, rfl⟩
  · simp only [length_spliceInsert, hfil]
    omega
  · exact get?_spliceInsert_self _ _ _ (by omega)

/-- Witness for `c7_swapKeeper_repivots`: with keeper 3 and queue [1, 2],
swapping puts the old keeper 3 back at index 0. -/
theorem c7_swapKeeper_repivots_witness :
    (swapKeeper ⟨3, [1, 2], 0, 0, []⟩).queue.get? 0 = some 3 :=
  (c7_swapKeeper_repivots ⟨3, [1, 2], 0, 0, []⟩ (by decide) (by decide)
    (by decide)).2.2.1

/-! ## Exact-duplicates keeper selection (`DuplicatesPage`)

The exact (filename+size) flow sorts each group with the comparator
`(resB - resA, tB - tA, b.id - a.id)` and keeps `sorted[0]`. -/

/-- The comparator passed to `Array.prototype.sort` in the exact-duplicates
flow: descending area, then descending parsed `created_at`, then
descending id. -/
def exactCmp (a b : Image) : Int :=
  if (areaOf b : Int) ≠ (areaOf a : Int) then (areaOf b : Int) - (areaOf a : Int)
  else if (timeOf b : Int) ≠ (timeOf a : Int) then (timeOf b : Int) - (timeOf a : Int)
  else (b.id : Int) - (a.id : Int)

/-- Stable insertion of one element into a run already sorted by
`exactCmp`. -/
def insertByCmp (a : Image) : List Image → List Image
  | [] => [a]
  | b :: rest => if exactCmp a b ≤ 0 then a :: b :: rest else b :: insertByCmp a rest

/-- `[...items].sort(exactCmp)`, modelled as a stable insertion sort (the
result JavaScript guarantees: a sorted, stable permutation). -/
def sortByCmp : List Image → List Image
  | [] => []
  | a :: rest => insertByCmp a (sortByCmp rest)

/-- `sorted[0]?.id` — the automatically chosen keeper of an
exact-duplicates group. -/
def exactKeeper (items : List Image) : Option Nat :=
  ((sortByCmp items).head?).map Image.id

/-- `y` scores no better than `k` under the exact-duplicates rule:
smaller area, or equal area and older, or equal area and timestamp and an
id at most `k`'s. -/
def lexLe (y k : Image) : Prop :=
  areaOf y < areaOf k ∨
  (areaOf y = areaOf k ∧ timeOf y < timeOf k) ∨
  (areaOf y = areaOf k ∧ timeOf y = timeOf k ∧ y.id ≤ k.id)

theorem exactCmp_le_iff (k y : Image) : exactCmp k y ≤ 0 ↔ lexLe y k := by
  unfold exactCmp lexLe
  split_ifs <;> omega

theorem exactCmp_total (a b : Image) : exactCmp a b ≤ 0 ∨ exactCmp b a ≤ 0 := by
  unfold exactCmp
  split_ifs <;> omega

theorem lexLe_refl (a : Image) : lexLe a a :=
  Or.inr (Or.inr ⟨rfl, rfl, le_refl _⟩)

theorem lexLe_trans {a b c : Image} (h1 : lexLe a b) (h2 : lexLe b c) :
    lexLe a c := by
  unfold lexLe at h1 h2 ⊢
  omega

theorem mem_insertByCmp {x a : Image} :
    ∀ {l : List Image}, x ∈ insertByCmp a l ↔ x = a ∨ x ∈ l := by
  intro l
  induction l with
  | nil => simp [insertByCmp]
  | cons b rest ih =>
      by_cases h : exactCmp a b ≤ 0
      · simp [insertByCmp, h]
      · simp only [insertByCmp, if_neg h, List.mem_cons, ih]
        tauto

/-- The head of the sorted group is a member that every other member
scores no better than, in the (area, recency, id) lexicographic order. -/
theorem sortByCmp_head_max :
    ∀ (l : List Image), l ≠ [] →
      ∃ k, (sortByCmp l).head? = some k ∧ k ∈ l ∧ ∀ y ∈ l, lexLe y k := by
  intro l
  induction l with
  | nil => intro h; exact absurd rfl h
  | cons a rest ih =>
      intro _
      by_cases hrest : rest = []
      · subst hrest
        exact ⟨a, rfl, List.mem_singleton_self a, fun y hy => by
          rcases List.mem_singleton.mp hy with rfl
          exact lexLe_refl y⟩
      · obtain ⟨k, hk, hkmem, hkmax⟩ := ih hrest
        obtain ⟨tl, htl⟩ : ∃ tl, sortByCmp rest = k :: tl := by
          cases hsr : sortByCmp rest with
          | nil => rw [hsr] at hk; cases hk
          | cons x t => rw [hsr] at hk; exact ⟨t, by cases hk; rfl⟩
        by_cases hak : exactCmp a k ≤ 0
        · refine ⟨a, ?_, List.mem_cons_self a rest, ?_⟩
          · simp [sortByCmp, htl, insertByCmp, hak]
          · intro y hy
            rcases List.mem_cons.mp hy with rfl | hy
            · exact lexLe_refl y
            · exact lexLe_trans (hkmax y hy) ((exactCmp_le_iff a k).mp hak)
        · refine ⟨k, ?_, List.mem_cons_of_mem a hkmem, ?_⟩
          · simp [sortByCmp, htl, insertByCmp, hak]
          · intro y hy
            rcases List.mem_cons.mp hy with rfl | hy
            · rcases exactCmp_total y k with h | h
              · exact absurd h hak
              · exact (exactCmp_le_iff k y).mp h
            · exact hkmax y hy

/-- C10: in the exact-duplicates flow, the automatically chosen keeper of
every non-empty group is a member that maximizes pixel area with ties
broken by most recent `created_at` timestamp and then by highest id
(missing dimensions or timestamps counting as zero): every group member
scores less than or equal to it in that lexicographic order. -/
theorem c10_exact_keeper_lex_max (items : List Image) (hne : items ≠ []) :
    ∃ k, k ∈ items ∧ exactKeeper items = some k.id ∧
      ∀ y ∈ items, lexLe y k := by
  obtain ⟨k, hk, hkmem, hkmax⟩ := sortByCmp_head_max items hne
  exact ⟨k, hkmem, by simp [exactKeeper, hk], hkmax⟩

/-- Witness for `c10_exact_keeper_lex_max` at the scenario group
[A, B, C]: a lexicographically maximal keeper exists (here C, the newer
of the two 800×600 images). -/
theorem c10_exact_keeper_lex_max_witness :
    (∃ k, k ∈ [imgA, imgB, imgC] ∧
      exactKeeper [imgA, imgB, imgC] = some k.id ∧
      ∀ y ∈ [imgA, imgB, imgC], lexLe y k) ∧
    exactKeeper [imgA, imgB, imgC] = some imgC.id :=
  ⟨c10_exact_keeper_lex_max [imgA, imgB, imgC] (by decide), by decide⟩

/-! ## Cluster builder and ignore ledger

The FastAPI backend implementing `/images/duplicates`,
`/images/duplicates/ignore` and the clustering itself is not among the
sources (only the axios client wrappers in `services/api` are), so these
two components are modelled from the specification. -/

/-- Modelled from the spec: Hamming distance — the count of differing
bits between two equal-length bit strings (glossary; §4.2). -/
def hamming : List Bool → List Bool → Nat
  | a :: as, b :: bs => (if a = b then 0 else 1) + hamming as bs
  | _, _ => 0

/-- Modelled from the spec: the canonical (sorted) form of an unordered
pair of image ids (§4.3). -/
def canonPair (a b : Nat) : Nat × Nat :=
  if a ≤ b then (a, b) else (b, a)

/-- Modelled from the spec: `isIgnored(idA, idB)` — canonical lookup in
the ignore ledger, a list of canonical pairs (§4.3). -/
def isIgnored (ledger : List (Nat × Nat)) (a b : Nat) : Bool :=
  decide (canonPair a b ∈ ledger)

/-- Modelled from the spec: `ignore(pairs)` for one pair — insert the
canonical form unless already present; a no-op, not an error, when the
pair is already ignored (§4.3). -/
def ledgerInsert (ledger : List (Nat × Nat)) (a b : Nat) : List (Nat × Nat) :=
  if canonPair a b ∈ ledger then ledger else ledger ++ [canonPair a b]

/-- Modelled from the spec: `ignore(pairs: (idA, idB)[])` over a batch of
pairs (§4.3). -/
def ignorePairs (ledger : List (Nat × Nat)) (pairs : List (Nat × Nat)) :
    List (Nat × Nat) :=
  pairs.foldl (fun acc p => ledgerInsert acc p.1 p.2) ledger

theorem hamming_comm : ∀ (h1 h2 : List Bool), hamming h1 h2 = hamming h2 h1 := by
  intro h1
  induction h1 with
  | nil => intro h2; cases h2 <;> rfl
  | cons a as ih =>
      intro h2
      cases h2 with
      | nil => rfl
      | cons b bs =>
          unfold hamming
          rw [ih bs]
          by_cases hab : a = b
          · rw [if_pos hab, if_pos hab.symm]
          · rw [if_neg hab, if_neg (fun h => hab h.symm)]

theorem canonPair_comm (a b : Nat) : canonPair a b = canonPair b a := by
  unfold canonPair
  split_ifs with h1 h2 h2
  · have : a = b := le_antisymm h1 h2
    rw [this]
  · rfl
  · rfl
  · omega

/-- Modelled from the spec: the clustering inputs — the hash assignment,
the Hamming-distance threshold, and the ignore ledger (§4.2). -/
structure ClusterEnv where
  hash : Nat → List Bool
  threshold : Nat
  ledger : List (Nat × Nat)

/-- Modelled from the spec: two distinct images are joined by a
clustering edge when their hashes lie within the threshold and the pair
is not in the ignore ledger — ignored pairs are removed from the graph
before components are computed (§4.2). -/
def edge (e : ClusterEnv) (a b : Nat) : Prop :=
  a ≠ b ∧ hamming (e.hash a) (e.hash b) ≤ e.threshold ∧
    isIgnored e.ledger a b = false

instance (e : ClusterEnv) (a b : Nat) : Decidable (edge e a b) := by
  unfold edge
  infer_instance

/-- Modelled from the spec: membership in the same cluster — clusters are
the connected components of the edge graph, so same-cluster is
reachability along edges (§4.2). -/
def sameCluster (e : ClusterEnv) : Nat → Nat → Prop :=
  Relation.ReflTransGen (edge e)

/-- The cluster of an image: everything reachable from it. -/
def clusterOf (e : ClusterEnv) (a : Nat) : Set Nat :=
  { x | sameCluster e a x }

theorem edge_symm (e : ClusterEnv) {a b : Nat} (h : edge e a b) : edge e b a := by
  obtain ⟨hne, hd, hig⟩ := h
  refine ⟨hne.symm, ?_, ?_⟩
  · rw [hamming_comm]
    exact hd
  · rw [isIgnored, ← canonPair_comm]
    exact hig

theorem sameCluster_symm (e : ClusterEnv) {a b : Nat}
    (h : sameCluster e a b) : sameCluster e b a :=
  Relation.ReflTransGen.symmetric (fun _ _ => edge_symm e) h

/-- C4: (i) any two distinct images whose Hamming distance is within the
threshold and whose pair is not in the ignore ledger belong to the same
cluster (and same-cluster membership is transitive, as reachability);
(ii) an ignored pair contributes no edge; (iii) images not connected
through the remaining edges — in particular two sub-clusters whose sole
connection was an ignored edge — end up in distinct clusters, never
one. -/
theorem c4_cluster_edges_and_split (e : ClusterEnv) :
    (∀ a b, a ≠ b → hamming (e.hash a) (e.hash b) ≤ e.threshold →
      isIgnored e.ledger a b = false → sameCluster e a b) ∧
    (∀ a b c, sameCluster e a b → sameCluster e b c → sameCluster e a c) ∧
    (∀ a b, isIgnored e.ledger a b = true → ¬edge e a b) ∧
    (∀ a b, ¬sameCluster e a b → clusterOf e a ≠ clusterOf e b) := by
  refine ⟨?_, ?_, ?_, ?_⟩
  · intro a b hne hd hig
    exact Relation.ReflTransGen.single ⟨hne, hd, hig⟩
  · intro a b c hab hbc
    exact hab.trans hbc
  · rintro a b hig ⟨_, _, hfalse⟩
    rw [hig] at hfalse
    cases hfalse
  · intro a b hns heq
    apply hns
    have hb : b ∈ clusterOf e b := Relation.ReflTransGen.refl
    rw [← heq] at hb
    exact hb

/-- A concrete clustering environment: hashes for images 1, 2, 3 with
d(1,2) = 1, d(2,3) = 1, d(1,3) = 2; threshold 1; pair (1,2) ignored. -/
def splitEnv : ClusterEnv where
  hash := fun n =>
    if n = 1 then [true, false, false]
    else if n = 2 then [true, true, false]
    else if n = 3 then [true, true, true]
    else []
  threshold := 1
  ledger := [(1, 2)]

/-- Witness for `c4_cluster_edges_and_split`: in `splitEnv` images 2 and
3 are within threshold and not ignored, hence in the same cluster. -/
theorem c4_cluster_edges_and_split_witness : sameCluster splitEnv 2 3 :=
  (c4_cluster_edges_and_split splitEnv).1 2 3 (by decide) (by decide) (by decide)

/-! The ignore ledger's own operation (C9). -/

theorem c9_helper_canonPair_sorted (a b : Nat) :
    (canonPair a b).1 ≤ (canonPair a b).2 := by
  unfold canonPair
  split_ifs with h
  · exact h
  · omega

/-- C9: the ignore operation stores pairs canonically — inserting (A,B)
and inserting (B,A) produce the same ledger, every stored pair is sorted
when the existing entries are, and the canonical pair is present
afterwards — and it is idempotent: re-ignoring an already-ignored pair
changes nothing, and two successive ignores of a fresh pair leave exactly
one ledger entry for it. -/
theorem c9_ignore_canonical_idempotent :
    (∀ L a b, ledgerInsert L a b = ledgerInsert L b a) ∧
    (∀ L a b, (∀ p ∈ L, p.1 ≤ p.2) → ∀ p ∈ ledgerInsert L a b, p.1 ≤ p.2) ∧
    (∀ L a b, canonPair a b ∈ ledgerInsert L a b) ∧
    (∀ L a b, ledgerInsert (ledgerInsert L a b) a b = ledgerInsert L a b) ∧
    (∀ L a b, canonPair a b ∉ L →
      (ledgerInsert (ledgerInsert L a b) a b).count (canonPair a b) = 1) := by
  refine ⟨?_, ?_, ?_, ?_, ?_⟩
  · intro L a b
    rw [ledgerInsert, ledgerInsert, canonPair_comm]
  · intro L a b hL p hp
    unfold ledgerInsert at hp
    split_ifs at hp with h
    · exact hL p hp
    · rcases List.mem_append.mp hp with hp | hp
      · exact hL p hp
      · rw [List.mem_singleton.mp hp]
        exact c9_helper_canonPair_sorted a b
  · intro L a b
    unfold ledgerInsert
    split_ifs with h
    · exact h
    · exact List.mem_append.mpr (Or.inr (List.mem_singleton_self _))
  · intro L a b
    have hmem : canonPair a b ∈ ledgerInsert L a b := by
      unfold ledgerInsert
      split_ifs with h
      · exact h
      · exact List.mem_append.mpr (Or.inr (List.mem_singleton_self _))
    rw [ledgerInsert, if_pos hmem]
  · intro L a b hnot
    have h1 : ledgerInsert L a b = L ++ [canonPair a b] := by
      rw [ledgerInsert, if_neg hnot]
    have hmem : canonPair a b ∈ ledgerInsert L a b := by
      rw [h1]
      exact List.mem_append.mpr (Or.inr (List.mem_singleton_self _))
    rw [ledgerInsert, if_pos hmem, h1, List.count_append]
    rw [List.count_eq_zero.mpr hnot]
    simp

/-- Witness for `c9_ignore_canonical_idempotent`: ignoring the fresh pair
(2, 1) twice on an empty ledger leaves exactly one entry. -/
theorem c9_ignore_canonical_idempotent_witness :
    (ledgerInsert (ledgerInsert [] 2 1) 2 1).count (canonPair 2 1) = 1 :=
  c9_ignore_canonical_idempotent.2.2.2.2 [] 2 1 (by decide)

/-! ## Cluster display filter (`DuplicatesPage`)

Per cluster the page keeps two `Set<number>`s of ephemerally removed ids
(merged and ignored in the current session), computes
`visibleCount = Math.max(0, images.length - (merged.size + ignored.size))`,
and renders nothing when `visibleCount <= 1`; the rendered grid filters
out ids in either set. -/

/-- A cluster as the page sees it: its image ids plus the ephemerally
removed ids of the session. -/
structure ClusterView where
  imageIds : List Nat
  merged : Finset Nat
  ignored : Finset Nat

/-- `removed.merged.size + removed.ignored.size`. -/
def removedCount (c : ClusterView) : Nat :=
  c.merged.card + c.ignored.card

/-- `Math.max(0, (c.images?.length || 0) - removedCount)` — truncated
subtraction on naturals is exactly the clamped difference. -/
def visibleCount (c : ClusterView) : Nat :=
  c.imageIds.length - removedCount c

/-- `if (visibleCount <= 1) return null` — the cluster is rendered only
when more than one image remains visible. -/
def clusterDisplayed (c : ClusterView) : Bool :=
  decide (1 < visibleCount c)

/-- `c.images.filter(img => !(merged.has(img.id) || ignored.has(img.id)))`. -/
def visibleImages (c : ClusterView) : List Nat :=
  c.imageIds.filter (fun id => !(decide (id ∈ c.merged) || decide (id ∈ c.ignored)))

theorem countP_mem_finset_le_card (s : Finset Nat) :
    ∀ (l : List Nat), l.Nodup →
      l.countP (fun id => decide (id ∈ s)) ≤ s.card := by
  intro l
  induction l generalizing s with
  | nil => intro _; simp
  | cons a t ih =>
      intro hn
      obtain ⟨ha, hnt⟩ := List.nodup_cons.mp hn
      by_cases has : a ∈ s
      · rw [List.countP_cons_of_pos _ _ (by simpa using has)]
        have hcongr : t.countP (fun id => decide (id ∈ s)) =
            t.countP (fun id => decide (id ∈ s.erase a)) := by
          apply List.countP_congr
          intro x hx
          have hxa : x ≠ a := fun hxa => ha (hxa ▸ hx)
          simp [Finset.mem_erase, hxa]
        have hcard : (s.erase a).card + 1 = s.card :=
          Finset.card_erase_add_one has
        have := ih (s.erase a) hnt
        omega
      · rw [List.countP_cons_of_neg _ _ (by simpa using has)]
        exact ih s hnt

/-- C8: a displayed cluster always presents at least two images that have
not been merged away or ignored in the session: whenever the page's
`visibleCount <= 1` guard lets a cluster render, the filtered grid holds
two or more ids. -/
theorem c8_displayed_cluster_min_two (c : ClusterView)
    (hn : c.imageIds.Nodup) (hd : clusterDisplayed c = true) :
    2 ≤ (visibleImages c).length := by
  have hcnt : (visibleImages c).length =
      c.imageIds.length -
        c.imageIds.countP (fun id => decide (id ∈ c.merged) || decide (id ∈ c.ignored)) := by
    have hsplit := List.length_eq_countP_add_countP
      (fun id => decide (id ∈ c.merged) || decide (id ∈ c.ignored)) c.imageIds
    have : (visibleImages c).length =
        c.imageIds.countP
          (fun id => !(decide (id ∈ c.merged) || decide (id ∈ c.ignored))) := by
      rw [visibleImages, List.countP_eq_length_filter]
    rw [this]
    have hnot : c.imageIds.countP
        (fun id => !(decide (id ∈ c.merged) || decide (id ∈ c.ignored))) =
        c.imageIds.countP
          (fun id => ¬(decide (id ∈ c.merged) || decide (id ∈ c.ignored)) = true) := by
      apply List.countP_congr
      intro x _
      simp
    rw [hnot]
    omega
  have hunion : c.imageIds.countP
      (fun id => decide (id ∈ c.merged) || decide (id ∈ c.ignored)) ≤
      (c.merged ∪ c.ignored).card := by
    have hcongr : c.imageIds.countP
        (fun id => decide (id ∈ c.merged) || decide (id ∈ c.ignored)) =
        c.imageIds.countP (fun id => decide (id ∈ c.merged ∪ c.ignored)) := by
      apply List.countP_congr
      intro x _
      simp [Finset.mem_union]
    rw [hcongr]
    exact countP_mem_finset_le_card (c.merged ∪ c.ignored) c.imageIds hn
  have hcard : (c.merged ∪ c.ignored).card ≤ c.merged.card + c.ignored.card :=
    Finset.card_union_le c.merged c.ignored
  have hvis : 1 < visibleCount c := by
    have := hd
    rw [clusterDisplayed, decide_eq_true_iff] at this
    exact this
  rw [visibleCount, removedCount] at hvis
  omega

/-- Witness for `c8_displayed_cluster_min_two`: a three-image cluster with
one id merged away still shows its two remaining images. -/
theorem c8_displayed_cluster_min_two_witness :
    2 ≤ (visibleImages ⟨[1, 2, 3], {1}, ∅⟩).length :=
  c8_displayed_cluster_min_two ⟨[1, 2, 3], {1}, ∅⟩ (by decide) (by decide)

end PhotoLib
